import Mathlib

/-!
Shallow embedding of the `DynamicResourceGraph` class from `updated_h4d.py`,
together with proofs of the specification's claims about it.

Modelling conventions:
* Node and edge attribute dictionaries become Lean structures; the networkx
  node set and edge set become `Option`-valued functions (a node id or an
  ordered pair maps to `some` record exactly when it is present).
* Python integers are `ℤ`; real-valued quantities (distances, travel times,
  vehicle positions, elapsed time) are `ℚ`.
* Python exceptions become an explicit `GraphError`.  Since Python raises an
  exception while leaving the already-performed mutations on the object in
  place, fallible mutators return `Except (GraphError × State) State`: the
  error case carries the partially mutated state.
* The unseeded `np.random.randint(1, 10)` distance draw at construction is
  made an explicit sampler argument, as the specification prescribes for
  determinism; everything else is translated directly from the source.
-/

namespace H4D

/-- One in-transit vehicle record on an edge: `{'car_id': …, 'position': …}`. -/
structure Vehicle where
  car_id : ℕ
  position : ℚ
deriving DecidableEq, Repr

/-- Attributes of a node: `people`, `cars`, `max_capacity`. -/
structure NodeData where
  people : ℤ
  cars : ℤ
  max_capacity : ℤ
deriving DecidableEq, Repr

/-- Attributes of a directed edge. -/
structure EdgeData where
  max_capacity : ℤ
  current_capacity : ℤ
  distance : ℚ
  travel_time : ℚ
  flow : ℤ
  cars : List Vehicle
deriving DecidableEq, Repr

/-- Exceptions the Python code can raise:
`keyError` for a missing node or edge lookup, `valueError u v` for the
"Capacity exceeded on edge (u, v)" `ValueError`, and `zeroDivision` for the
`ZeroDivisionError` from `y // x` when `x = 0`. -/
inductive GraphError where
  | keyError : GraphError
  | valueError : ℕ → ℕ → GraphError
  | zeroDivision : GraphError
deriving DecidableEq, Repr

/-- The state of a `DynamicResourceGraph` object. -/
structure DynamicResourceGraph where
  node_max : ℤ
  node_edge : ℤ
  distance_constant : ℚ
  nodes : ℕ → Option NodeData
  edges : ℕ → ℕ → Option EdgeData

/-- `__init__` / `initialize_graph`: creates `x` nodes, each getting
`y // x` people and `z // x` cars (Python floor division, `Int.fdiv`),
and a directed edge for every ordered pair of distinct nodes.  The random
distance draw is supplied by `sampler`.  With `x = 0`, `y // x` raises
`ZeroDivisionError`. -/
def initialize_graph (x : ℕ) (y z : ℤ) (node_max node_edge : ℤ)
    (distance_constant : ℚ) (sampler : ℕ → ℕ → ℚ) :
    Except GraphError DynamicResourceGraph :=
  if x = 0 then
    .error .zeroDivision
  else
    .ok
      { node_max := node_max
        node_edge := node_edge
        distance_constant := distance_constant
        nodes := fun n =>
          if n < x then
            some { people := Int.fdiv y x, cars := Int.fdiv z x,
                   max_capacity := node_max }
          else none
        edges := fun i j =>
          if i < x ∧ j < x ∧ i ≠ j then
            some { max_capacity := node_edge, current_capacity := node_edge,
                   distance := sampler i j,
                   travel_time := sampler i j * distance_constant,
                   flow := 0, cars := [] }
          else none }

/-- `update_resource_level`: add the (signed) deltas to a node's `people`
and `cars`.  A missing node is a `KeyError`. -/
def update_resource_level (g : DynamicResourceGraph) (node : ℕ)
    (people_amount cars_amount : ℤ) :
    Except (GraphError × DynamicResourceGraph) DynamicResourceGraph :=
  match g.nodes node with
  | none => .error (.keyError, g)
  | some nd =>
      .ok { g with
              nodes := fun m =>
                if m = node then
                  some { nd with people := nd.people + people_amount,
                                 cars := nd.cars + cars_amount }
                else g.nodes m }

/-- `adjust_edge_capacities`: for every edge,
`current_capacity := max_capacity - flow`. -/
def adjust_edge_capacities (g : DynamicResourceGraph) : DynamicResourceGraph :=
  { g with
      edges := fun u v =>
        (g.edges u v).map fun e =>
          { e with current_capacity := e.max_capacity - e.flow } }

/-- Overwrite the record stored for edge `(u, v)`. -/
def setEdgeFn (g : DynamicResourceGraph) (u v : ℕ) (e : EdgeData) :
    DynamicResourceGraph :=
  { g with
      edges := fun i j => if i = u ∧ j = v then some e else g.edges i j }

/-- The first mutation of a `move_resources` step on the traversed edge:
`flow += people_amount; current_capacity -= people_amount`. -/
def bump (e : EdgeData) (p : ℤ) : EdgeData :=
  { e with flow := e.flow + p, current_capacity := e.current_capacity - p }

/-- The vehicle-append loop of a `move_resources` step:
`for car in range(n): cars.append({'car_id': len(cars) + 1, 'position': 0})`. -/
def appendCars : List Vehicle → ℕ → List Vehicle
  | l, 0 => l
  | l, n + 1 => appendCars (l ++ [{ car_id := l.length + 1, position := 0 }]) n

/-- One iteration of the `move_resources` loop for the consecutive pair
`(u, v)`: bump the edge, check capacity (raising `ValueError` and keeping the
partial mutation), update both nodes' resources, then append the vehicles. -/
def step (g : DynamicResourceGraph) (u v : ℕ) (p c : ℤ) :
    Except (GraphError × DynamicResourceGraph) DynamicResourceGraph :=
  match g.edges u v with
  | none => .error (.keyError, g)
  | some e =>
      if (bump e p).current_capacity < 0 then
        .error (.valueError u v, setEdgeFn g u v (bump e p))
      else
        match update_resource_level (setEdgeFn g u v (bump e p)) u (-p) (-c) with
        | .error x => .error x
        | .ok g2 =>
            match update_resource_level g2 v p c with
            | .error x => .error x
            | .ok g3 =>
                match g3.edges u v with
                | none => .error (.keyError, g3)
                | some e3 =>
                    .ok (setEdgeFn g3 u v
                          { e3 with cars := appendCars e3.cars c.toNat })

/-- The `for i in range(len(path) - 1)` loop of `move_resources`, expressed
over the list of consecutive pairs of the path. -/
def move_loop (g : DynamicResourceGraph) (steps : List (ℕ × ℕ)) (p c : ℤ) :
    Except (GraphError × DynamicResourceGraph) DynamicResourceGraph :=
  match steps with
  | [] => .ok g
  | (u, v) :: rest =>
      match step g u v p c with
      | .error x => .error x
      | .ok g' => move_loop g' rest p c

/-- `move_resources(path, people_amount, cars_amount)`. -/
def move_resources (g : DynamicResourceGraph) (path : List ℕ) (p c : ℤ) :
    Except (GraphError × DynamicResourceGraph) DynamicResourceGraph :=
  move_loop g (path.zip path.tail) p c

/-- One vehicle's update in `update_car_positions`:
`position += (distance / travel_time) * time_elapsed`, then clamp at
`distance` if the result reached it. -/
def advanceCar (distance travel_time t : ℚ) (car : Vehicle) : Vehicle :=
  if distance ≤ car.position + distance / travel_time * t then
    { car with position := distance }
  else
    { car with position := car.position + distance / travel_time * t }

/-- `update_car_positions(time_elapsed)`: advance every vehicle on every
edge. -/
def update_car_positions (g : DynamicResourceGraph) (t : ℚ) :
    DynamicResourceGraph :=
  { g with
      edges := fun u v =>
        (g.edges u v).map fun e =>
          { e with cars := e.cars.map (advanceCar e.distance e.travel_time t) } }

/-- Repeated `update_car_positions` calls, one per entry of `ts`. -/
def advanceTimes (g : DynamicResourceGraph) (ts : List ℚ) :
    DynamicResourceGraph :=
  ts.foldl update_car_positions g

/-- `reset_flows`: for every edge, `flow := 0`,
`current_capacity := max_capacity`, `cars := []`. -/
def reset_flows (g : DynamicResourceGraph) : DynamicResourceGraph :=
  { g with
      edges := fun u v =>
        (g.edges u v).map fun e =>
          { e with flow := 0, current_capacity := e.max_capacity, cars := [] } }

/-- `get_car_positions`: for every edge, the list of
`(car_id, position)` pairs on it. -/
def get_car_positions (g : DynamicResourceGraph) :
    ℕ → ℕ → Option (List (ℕ × ℚ)) :=
  fun u v => (g.edges u v).map fun e =>
    e.cars.map fun car => (car.car_id, car.position)

/-- Sum of the `people` attribute over nodes `0, …, x - 1`. -/
def peopleSum (g : DynamicResourceGraph) : ℕ → ℤ
  | 0 => 0
  | x + 1 => peopleSum g x + ((g.nodes x).map NodeData.people).getD 0

/-- Net per-node multiplier of one path step `(u, v)`: `+1` at the target,
`-1` at the source. -/
def pairDelta (u v n : ℕ) : ℤ :=
  (if n = v then 1 else 0) - (if n = u then 1 else 0)

/-- Net per-node multiplier of a list of path steps: the number of times the
node is a step target minus the number of times it is a step source. -/
def stepDelta (steps : List (ℕ × ℕ)) (n : ℕ) : ℤ :=
  ((steps.countP fun s => decide (n = s.2)) : ℤ) -
    ((steps.countP fun s => decide (n = s.1)) : ℤ)

/-- Apply the net resource change `p * δ` people and `c * δ` cars to a node
record. -/
def deltaAdj (p c δ : ℤ) (nd : NodeData) : NodeData :=
  { nd with people := nd.people + p * δ, cars := nd.cars + c * δ }

/-- All consecutive pairs of the path are present as edges and their
endpoints are present as nodes. -/
def pathOk (g : DynamicResourceGraph) (path : List ℕ) : Prop :=
  ∀ s ∈ path.zip path.tail,
    (g.edges s.1 s.2).isSome ∧ (g.nodes s.1).isSome ∧ (g.nodes s.2).isSome

instance (g : DynamicResourceGraph) (path : List ℕ) :
    Decidable (pathOk g path) := by
  unfold pathOk; infer_instance

/-- The capacity bookkeeping equation on every present edge. -/
def edgeCapInv (g : DynamicResourceGraph) : Prop :=
  ∀ u v e, g.edges u v = some e →
    e.current_capacity = e.max_capacity - e.flow

/-! ### Concrete example states (the spec's 5-node example graph) -/

/-- The example construction: 5 nodes, 100 people, 20 cars, node capacity 50,
edge capacity 30, distance constant 1, all sampled distances 4. -/
def exInit : Except GraphError DynamicResourceGraph :=
  initialize_graph 5 100 20 50 30 1 (fun _ _ => 4)

/-- The constructed example graph. -/
def exG : DynamicResourceGraph :=
  match exInit with
  | .ok g => g
  | .error _ =>
      { node_max := 0, node_edge := 0, distance_constant := 0,
        nodes := fun _ => none, edges := fun _ _ => none }

/-- The example graph after `move_resources([0, 1, 2], 10, 2)`. -/
def exG' : DynamicResourceGraph :=
  match move_resources exG [0, 1, 2] 10 2 with
  | .ok g => g
  | .error x => x.2

/-- The failed call `move_resources([0, 1], 40, 0)` on the example graph:
40 people exceed the edge capacity 30, so it raises, and this is the raised
error together with the partially mutated state. -/
def exFail : GraphError × DynamicResourceGraph :=
  match move_resources exG [0, 1] 40 0 with
  | .error x => x
  | .ok g => (.keyError, g)

/-- The example graph after the repeated-edge call
`move_resources([0, 1, 0, 1], 1, 0)`. -/
def cexG1 : DynamicResourceGraph :=
  match move_resources exG [0, 1, 0, 1] 1 0 with
  | .ok g => g
  | .error x => x.2

/-! ### Basic lemmas about the state helpers -/

theorem setEdgeFn_nodes (g : DynamicResourceGraph) (u v : ℕ) (e : EdgeData) :
    (setEdgeFn g u v e).nodes = g.nodes := rfl

theorem setEdgeFn_edges_self (g : DynamicResourceGraph) (u v : ℕ) (e : EdgeData) :
    (setEdgeFn g u v e).edges u v = some e := by
  simp [setEdgeFn]

theorem setEdgeFn_edges_ne (g : DynamicResourceGraph) (u v : ℕ) (e : EdgeData)
    (i j : ℕ) (h : ¬(i = u ∧ j = v)) :
    (setEdgeFn g u v e).edges i j = g.edges i j := by
  simp [setEdgeFn, h]

theorem deltaAdj_zero (p c : ℤ) (nd : NodeData) : deltaAdj p c 0 nd = nd := by
  simp [deltaAdj]

theorem deltaAdj_comp (p c δ1 δ2 : ℤ) (nd : NodeData) :
    deltaAdj p c δ2 (deltaAdj p c δ1 nd) = deltaAdj p c (δ1 + δ2) nd := by
  simp only [deltaAdj]
  refine congrArg₂ (fun a b => NodeData.mk a b nd.max_capacity) (by ring) (by ring)

theorem stepDelta_nil (n : ℕ) : stepDelta [] n = 0 := rfl

theorem stepDelta_cons (s : ℕ × ℕ) (rest : List (ℕ × ℕ)) (n : ℕ) :
    stepDelta (s :: rest) n = pairDelta s.1 s.2 n + stepDelta rest n := by
  simp only [stepDelta, pairDelta, List.countP_cons]
  by_cases h1 : n = s.2 <;> by_cases h2 : n = s.1 <;>
    simp [h1, h2] <;> omega

theorem appendCars_eq (n : ℕ) :
    ∀ l : List Vehicle,
      appendCars l n =
        l ++ (List.range n).map fun i =>
          { car_id := l.length + 1 + i, position := 0 } := by
  induction n with
  | zero => intro l; simp [appendCars]
  | succ n ih =>
      intro l
      rw [show appendCars l (n + 1) =
            appendCars (l ++ [{ car_id := l.length + 1, position := 0 }]) n
          from rfl, ih]
      rw [List.range_succ_eq_map, List.append_assoc]
      simp only [List.map_cons, List.map_map, List.length_append,
        List.length_cons, List.length_nil, List.cons_append, List.nil_append,
        List.map_id]
      refine congrArg (l ++ ·) (congrArg₂ List.cons (by simp) ?_)
      refine congrArg (List.map · (List.range n)) (funext fun i => ?_)
      simp [Function.comp]
      omega

/-! ### Characterization of `update_resource_level` and `step` -/

theorem update_resource_level_ok {g g' : DynamicResourceGraph} {n : ℕ}
    {dp dc : ℤ} (h : update_resource_level g n dp dc = .ok g') :
    ∃ nd, g.nodes n = some nd ∧
      g'.edges = g.edges ∧
      g'.node_max = g.node_max ∧ g'.node_edge = g.node_edge ∧
      g'.distance_constant = g.distance_constant ∧
      ∀ m, g'.nodes m =
        if m = n then
          some { nd with people := nd.people + dp, cars := nd.cars + dc }
        else g.nodes m := by
  unfold update_resource_level at h
  split at h
  · exact absurd h (by simp)
  · rename_i nd hnd
    injection h with h
    subst h
    exact ⟨nd, hnd, rfl, rfl, rfl, rfl, fun m => rfl⟩

theorem update_resource_level_err {g g' : DynamicResourceGraph} {n : ℕ}
    {dp dc : ℤ} {err : GraphError}
    (h : update_resource_level g n dp dc = .error (err, g')) :
    err = .keyError ∧ g.nodes n = none := by
  unfold update_resource_level at h
  split at h
  · rename_i hnd
    injection h with h
    exact ⟨(congrArg Prod.fst h).symm, hnd⟩
  · exact absurd h (by simp)

theorem NodeData.ext' {a b : NodeData} (hp : a.people = b.people)
    (hc : a.cars = b.cars) (hm : a.max_capacity = b.max_capacity) : a = b := by
  cases a; cases b; cases hp; cases hc; cases hm; rfl

/-- Full characterization of a successful `move_resources` step: the edge is
bumped and gets the appended vehicles, no other edge changes, and every node
record is adjusted by `p`/`c` times its source/target multiplier. -/
theorem step_ok_char {g g' : DynamicResourceGraph} {u v : ℕ} {p c : ℤ}
    (h : step g u v p c = .ok g') :
    ∃ e, g.edges u v = some e ∧ ¬ e.current_capacity - p < 0 ∧
      g'.edges u v = some { bump e p with cars := appendCars e.cars c.toNat } ∧
      (∀ i j, ¬(i = u ∧ j = v) → g'.edges i j = g.edges i j) ∧
      (∀ n, g'.nodes n = (g.nodes n).map (deltaAdj p c (pairDelta u v n))) ∧
      g'.node_max = g.node_max ∧ g'.node_edge = g.node_edge ∧
      g'.distance_constant = g.distance_constant := by
  unfold step at h
  split at h
  · exact absurd h (by simp)
  rename_i e he
  split at h
  · exact absurd h (by simp)
  rename_i hcap
  split at h
  · exact absurd h (by simp)
  rename_i g2 hg2
  split at h
  · exact absurd h (by simp)
  rename_i g3 hg3
  split at h
  · exact absurd h (by simp)
  rename_i e3 he3
  injection h with h
  subst h
  obtain ⟨nu, hnu, hE2, hm2, hn2, hd2, hN2⟩ := update_resource_level_ok hg2
  obtain ⟨nv, hnv, hE3, hm3, hn3, hd3, hN3⟩ := update_resource_level_ok hg3
  simp only [setEdgeFn_nodes] at hnu hN2
  have hg3e : g3.edges u v = some (bump e p) := by
    rw [hE3, hE2, setEdgeFn_edges_self]
  have he3' : e3 = bump e p := by
    rw [he3] at hg3e; exact Option.some.inj hg3e
  subst he3'
  refine ⟨e, he, hcap, ?_, ?_, ?_, hm3.trans hm2, hn3.trans hn2, hd3.trans hd2⟩
  · exact setEdgeFn_edges_self g3 u v _
  · intro i j hij
    rw [setEdgeFn_edges_ne _ _ _ _ _ _ hij, hE3, hE2,
      setEdgeFn_edges_ne _ _ _ _ _ _ hij]
  · intro n
    have hnodes : (setEdgeFn g3 u v
        { bump e p with cars := appendCars (bump e p).cars c.toNat }).nodes n =
        g3.nodes n := rfl
    rw [hnodes, hN3 n]
    by_cases h1 : n = v
    · rw [if_pos h1]
      by_cases h2 : n = u
      · -- n is both the target and the source (only possible when u = v)
        have huv : v = u := by rw [← h1, h2]
        rw [hN2 v, if_pos huv] at hnv
        obtain rfl := (Option.some.inj hnv).symm
        have hgu : g.nodes n = some nu := by rw [h2]; exact hnu
        have hd : pairDelta u v n = 0 := by
          unfold pairDelta; rw [if_pos h1, if_pos h2]; decide
        rw [hgu, hd]
        simp only [Option.map_some', Option.some.injEq, deltaAdj]
        exact NodeData.ext' (by simp; try ring) (by simp; try ring) rfl
      · -- n = v ≠ u
        have hvu : ¬ v = u := fun hh => h2 (h1.trans hh)
        rw [hN2 v, if_neg hvu] at hnv
        rw [← h1] at hnv
        have hd : pairDelta u v n = 1 := by
          unfold pairDelta; rw [if_pos h1, if_neg h2]; decide
        rw [hnv, hd]
        simp only [Option.map_some', Option.some.injEq, deltaAdj]
        exact NodeData.ext' (by simp; try ring) (by simp; try ring) rfl
    · rw [if_neg h1, hN2 n]
      by_cases h2 : n = u
      · rw [if_pos h2]
        have hgu : g.nodes n = some nu := by rw [h2]; exact hnu
        have hd : pairDelta u v n = -1 := by
          unfold pairDelta; rw [if_neg h1, if_pos h2]; decide
        rw [hgu, hd]
        simp only [Option.map_some', Option.some.injEq, deltaAdj]
        exact NodeData.ext' (by simp; try ring) (by simp; try ring) rfl
      · rw [if_neg h2]
        have hd : pairDelta u v n = 0 := by
          unfold pairDelta; rw [if_neg h1, if_neg h2]; decide
        rw [hd]
        cases g.nodes n with
        | none => rfl
        | some nd => simp [deltaAdj_zero]

/-- Characterization of a failing `move_resources` step: either the edge was
missing (`KeyError`, state untouched), or the capacity check fired
(`ValueError (u, v)`, with exactly the edge bump already applied), or a node
was missing (`KeyError`, after the capacity check passed). -/
theorem step_err_char {g g' : DynamicResourceGraph} {u v : ℕ} {p c : ℤ}
    {err : GraphError} (h : step g u v p c = .error (err, g')) :
    (err = .keyError ∧ g' = g ∧ g.edges u v = none) ∨
    (∃ e, g.edges u v = some e ∧ e.current_capacity - p < 0 ∧
      err = .valueError u v ∧ g' = setEdgeFn g u v (bump e p)) ∨
    (err = .keyError ∧ ∃ e, g.edges u v = some e ∧
      ¬ e.current_capacity - p < 0 ∧ (g.nodes u = none ∨ g.nodes v = none)) := by
  unfold step at h
  split at h
  · rename_i hnone
    injection h with h
    exact Or.inl ⟨(congrArg Prod.fst h).symm, (congrArg Prod.snd h).symm, hnone⟩
  rename_i e he
  split at h
  · rename_i hcap
    injection h with h
    exact Or.inr (Or.inl ⟨e, he, hcap,
      (congrArg Prod.fst h).symm, (congrArg Prod.snd h).symm⟩)
  rename_i hcap
  split at h
  · rename_i x hu
    obtain ⟨herr, hnode⟩ := update_resource_level_err (h ▸ hu)
    rw [setEdgeFn_nodes] at hnode
    exact Or.inr (Or.inr ⟨herr, e, he, hcap, Or.inl hnode⟩)
  rename_i g2 hg2
  split at h
  · rename_i x hv
    obtain ⟨herr, hnode⟩ := update_resource_level_err (h ▸ hv)
    obtain ⟨nu, hnu, hE2, hm2, hn2, hd2, hN2⟩ := update_resource_level_ok hg2
    simp only [setEdgeFn_nodes] at hN2
    rw [hN2 v] at hnode
    refine Or.inr (Or.inr ⟨herr, e, he, hcap, Or.inr ?_⟩)
    by_cases hvu : v = u
    · rw [if_pos hvu] at hnode; exact absurd hnode (by simp)
    · rw [if_neg hvu] at hnode; exact hnode
  rename_i g3 hg3
  split at h
  · -- unreachable: the traversed edge is still present in `g3`
    obtain ⟨nu, hnu, hE2, hm2a, hn2a, hd2a, hN2a⟩ := update_resource_level_ok hg2
    obtain ⟨nv, hnv, hE3, hm3a, hn3a, hd3a, hN3a⟩ := update_resource_level_ok hg3
    rename_i hnone
    rw [hE3, hE2, setEdgeFn_edges_self] at hnone
    exact absurd hnone (by simp)
  · exact absurd h (by simp)

/-- A successful step neither creates nor deletes nodes or edges. -/
theorem step_ok_support {g g' : DynamicResourceGraph} {u v : ℕ} {p c : ℤ}
    (h : step g u v p c = .ok g') :
    (∀ i j, (g'.edges i j).isSome = (g.edges i j).isSome) ∧
    (∀ n, (g'.nodes n).isSome = (g.nodes n).isSome) := by
  obtain ⟨e, he, hc1, hself, hother, hnodes, hr1, hr2, hr3⟩ := step_ok_char h
  constructor
  · intro i j
    by_cases hij : i = u ∧ j = v
    · obtain ⟨rfl, rfl⟩ := hij
      rw [hself, he]; rfl
    · rw [hother i j hij]
  · intro n
    rw [hnodes n, Option.isSome_map']

/-- A successful `move_loop` run neither creates nor deletes nodes or
edges. -/
theorem move_loop_ok_support :
    ∀ (steps : List (ℕ × ℕ)) (g g' : DynamicResourceGraph) (p c : ℤ),
      move_loop g steps p c = .ok g' →
      (∀ i j, (g'.edges i j).isSome = (g.edges i j).isSome) ∧
      (∀ n, (g'.nodes n).isSome = (g.nodes n).isSome) := by
  intro steps
  induction steps with
  | nil =>
      intro g g' p c h
      injection h with h
      subst h
      exact ⟨fun i j => rfl, fun n => rfl⟩
  | cons s rest ih =>
      intro g g' p c h
      obtain ⟨u, v⟩ := s
      unfold move_loop at h
      split at h
      · exact absurd h (by simp)
      · rename_i g1 h1
        obtain ⟨he1, hn1⟩ := step_ok_support h1
        obtain ⟨he2, hn2⟩ := ih g1 g' p c h
        exact ⟨fun i j => (he2 i j).trans (he1 i j),
          fun n => (hn2 n).trans (hn1 n)⟩

/-- A failing `move_loop` run decomposes as: a successful prefix, then the
failing step. -/
theorem move_loop_err_char :
    ∀ (steps : List (ℕ × ℕ)) (g g' : DynamicResourceGraph) (p c : ℤ)
      (err : GraphError),
      move_loop g steps p c = .error (err, g') →
      ∃ done u v rest gPrev, steps = done ++ (u, v) :: rest ∧
        move_loop g done p c = .ok gPrev ∧
        step gPrev u v p c = .error (err, g') := by
  intro steps
  induction steps with
  | nil =>
      intro g g' p c err h
      exact absurd h (by simp [move_loop])
  | cons s rest ih =>
      intro g g' p c err h
      obtain ⟨u, v⟩ := s
      unfold move_loop at h
      split at h
      · rename_i x hx
        injection h with h
        subst h
        exact ⟨[], u, v, rest, g, rfl, rfl, hx⟩
      · rename_i g1 h1
        obtain ⟨done, u', v', rest', gPrev, hsplit, hloop, hstep⟩ :=
          ih g1 g' p c err h
        refine ⟨(u, v) :: done, u', v', rest', gPrev, by rw [hsplit]; rfl,
          ?_, hstep⟩
        unfold move_loop
        rw [h1]
        exact hloop

/-- Full characterization of a successful `move_loop` run over pairwise
distinct steps: each traversed edge is bumped once and receives its appended
vehicles, untraversed edges are untouched, and every node record is adjusted
by the net source/target multiplier of the step list. -/
theorem move_loop_ok_char :
    ∀ (steps : List (ℕ × ℕ)) (g g' : DynamicResourceGraph) (p c : ℤ),
      steps.Nodup → move_loop g steps p c = .ok g' →
      (∀ u v, ¬(u, v) ∈ steps → g'.edges u v = g.edges u v) ∧
      (∀ u v, (u, v) ∈ steps → ∃ e, g.edges u v = some e ∧
        g'.edges u v = some { bump e p with cars := appendCars e.cars c.toNat }) ∧
      (∀ n, g'.nodes n = (g.nodes n).map (deltaAdj p c (stepDelta steps n))) := by
  intro steps
  induction steps with
  | nil =>
      intro g g' p c hnd h
      injection h with h
      subst h
      refine ⟨fun u v _ => rfl, fun u v hm => absurd hm (by simp), fun n => ?_⟩
      rw [stepDelta_nil]
      cases g.nodes n with
      | none => rfl
      | some nd => simp [deltaAdj_zero]
  | cons s rest ih =>
      intro g g' p c hnd h
      obtain ⟨u, v⟩ := s
      obtain ⟨hs, hnd'⟩ := List.nodup_cons.mp hnd
      unfold move_loop at h
      split at h
      · exact absurd h (by simp)
      rename_i g1 h1
      obtain ⟨e, he, hcap, hself, hother, hnodes, _, _, _⟩ := step_ok_char h1
      obtain ⟨ihother, ihmem, ihnodes⟩ := ih g1 g' p c hnd' h
      refine ⟨?_, ?_, ?_⟩
      · intro a b hab
        have hab1 : ¬(a, b) ∈ rest := fun hm => hab (List.mem_cons_of_mem _ hm)
        have hab2 : ¬(a = u ∧ b = v) := by
          rintro ⟨rfl, rfl⟩
          exact hab (List.mem_cons_self _ _)
        rw [ihother a b hab1, hother a b hab2]
      · intro a b hab
        rcases List.mem_cons.mp hab with hab1 | hab2
        · have ha : a = u := congrArg Prod.fst hab1
          have hb : b = v := congrArg Prod.snd hab1
          subst ha; subst hb
          exact ⟨e, he, (ihother a b hs).trans hself⟩
        · have hne : ¬(a = u ∧ b = v) := by
            rintro ⟨rfl, rfl⟩
            exact hs hab2
          obtain ⟨e1, he1, he1'⟩ := ihmem a b hab2
          rw [hother a b hne] at he1
          exact ⟨e1, he1, he1'⟩
      · intro n
        rw [ihnodes n, hnodes n, Option.map_map, stepDelta_cons]
        cases g.nodes n with
        | none => rfl
        | some nd =>
            simp only [Option.map_some', Function.comp_apply, Option.some.injEq]
            rw [deltaAdj_comp]

/-- On a path whose steps all refer to present edges and nodes, a failing
`move_resources` call can only be the capacity check: the error is
`ValueError (u, v)` for the failing step, all earlier steps were applied in
full (`gPrev`), and the final state is `gPrev` with exactly the bump of the
violating edge applied on top. -/
theorem move_resources_fail_char {g g' : DynamicResourceGraph}
    {path : List ℕ} {p c : ℤ} {err : GraphError}
    (hok : pathOk g path) (h : move_resources g path p c = .error (err, g')) :
    ∃ done u v rest gPrev e,
      path.zip path.tail = done ++ (u, v) :: rest ∧
      move_loop g done p c = .ok gPrev ∧
      err = .valueError u v ∧
      gPrev.edges u v = some e ∧
      e.current_capacity - p < 0 ∧
      g' = setEdgeFn gPrev u v (bump e p) := by
  obtain ⟨done, u, v, rest, gPrev, hsplit, hloop, hstep⟩ :=
    move_loop_err_char _ _ _ _ _ _ h
  have hmem : (u, v) ∈ path.zip path.tail := by
    rw [hsplit]; exact List.mem_append_right _ (List.mem_cons_self _ _)
  obtain ⟨hedge, hnu, hnv⟩ := hok (u, v) hmem
  obtain ⟨hE, hN⟩ := move_loop_ok_support done g gPrev p c hloop
  rcases step_err_char hstep with ⟨herr, hg, hnone⟩ |
    ⟨e, he, hcap, herr, hg'⟩ | ⟨herr, e, he, hcap, hnodes⟩
  · exfalso
    have hx := hE u v
    rw [hnone, hedge] at hx
    simp at hx
  · exact ⟨done, u, v, rest, gPrev, e, hsplit, hloop, herr, he, hcap, hg'⟩
  · exfalso
    rcases hnodes with hn0 | hn0
    · have hx := hN u
      rw [hn0, hnu] at hx
      simp at hx
    · have hx := hN v
      rw [hn0, hnv] at hx
      simp at hx

/-! ### Vehicle position advancement -/

theorem advanceCar_position (d tt t : ℚ) (car : Vehicle) :
    (advanceCar d tt t car).position = min d (car.position + d / tt * t) := by
  unfold advanceCar
  rw [min_def]
  by_cases h : d ≤ car.position + d / tt * t
  · rw [if_pos h, if_pos h]
  · rw [if_neg h, if_neg h]

theorem advanceCar_car_id (d tt t : ℚ) (car : Vehicle) :
    (advanceCar d tt t car).car_id = car.car_id := by
  unfold advanceCar
  by_cases h : d ≤ car.position + d / tt * t
  · rw [if_pos h]
  · rw [if_neg h]

theorem advanceCar_bounds {d tt t : ℚ} (ht : 0 ≤ t) (htt : 0 < tt)
    {car : Vehicle} (h0 : 0 ≤ car.position) (h1 : car.position ≤ d) :
    0 ≤ (advanceCar d tt t car).position ∧
      (advanceCar d tt t car).position ≤ d := by
  have hd : 0 ≤ d := le_trans h0 h1
  have hr : 0 ≤ d / tt := div_nonneg hd htt.le
  have hx : 0 ≤ car.position + d / tt * t := add_nonneg h0 (mul_nonneg hr ht)
  rw [advanceCar_position]
  exact ⟨le_min hd hx, min_le_left _ _⟩

/-- Closed form for repeatedly advancing one vehicle: the position is the
initial position plus rate times total elapsed time, clamped at the
distance. -/
theorem advance_foldl_position (d tt : ℚ) (htt : 0 < tt) :
    ∀ ts : List ℚ, (∀ t ∈ ts, 0 ≤ t) → ∀ car : Vehicle,
      0 ≤ car.position → car.position ≤ d →
      (ts.foldl (fun car t => advanceCar d tt t car) car).position =
        min d (car.position + d / tt * ts.sum) := by
  intro ts
  induction ts with
  | nil =>
      intro _ car h0 h1
      simp [min_eq_right h1]
  | cons t ts ih =>
      intro hts car h0 h1
      have ht : 0 ≤ t := hts t (List.mem_cons_self _ _)
      have hts' : ∀ t' ∈ ts, 0 ≤ t' := fun t' h => hts t' (List.mem_cons_of_mem _ h)
      obtain ⟨h0', h1'⟩ := advanceCar_bounds ht htt h0 h1
      rw [List.foldl_cons, ih hts' _ h0' h1', advanceCar_position]
      have hd : 0 ≤ d := le_trans h0 h1
      have hr : 0 ≤ d / tt := div_nonneg hd htt.le
      have hS : 0 ≤ ts.sum := List.sum_nonneg hts'
      rw [List.sum_cons, mul_add, ← add_assoc]
      rcases le_total d (car.position + d / tt * t) with hc | hc
      · rw [min_eq_left hc,
          min_eq_left (le_add_of_nonneg_right (mul_nonneg hr hS)),
          min_eq_left (le_trans hc (le_add_of_nonneg_right (mul_nonneg hr hS)))]
      · rw [min_eq_right hc]

theorem update_car_positions_edge {g : DynamicResourceGraph} {u v : ℕ}
    {e : EdgeData} (he : g.edges u v = some e) (t : ℚ) :
    (update_car_positions g t).edges u v =
      some { e with cars := e.cars.map (advanceCar e.distance e.travel_time t) } := by
  show (g.edges u v).map _ = _
  rw [he]
  rfl

theorem advanceTimes_edge :
    ∀ (ts : List ℚ) (g : DynamicResourceGraph) (u v : ℕ) (e : EdgeData),
      g.edges u v = some e →
      (advanceTimes g ts).edges u v =
        some { e with cars := e.cars.map (fun car =>
          ts.foldl (fun car t => advanceCar e.distance e.travel_time t car) car) } := by
  intro ts
  induction ts with
  | nil =>
      intro g u v e he
      show g.edges u v = _
      rw [he]
      simp
  | cons t ts ih =>
      intro g u v e he
      have h2 := ih (update_car_positions g t) u v _
        (update_car_positions_edge he t)
      show (advanceTimes (update_car_positions g t) ts).edges u v = _
      rw [h2]
      simp only [Option.some.injEq]
      rw [List.map_map]
      rfl

/-! ### The specification's claims -/

/-- C4: `AdjustEdgeCapacities` sets every edge's `currentCapacity` to
`maxCapacity - flow`, mutates no other field (nodes, construction parameters,
and the remaining edge fields are untouched, in particular `flow`), and is
idempotent: a second call with no intervening mutation yields the same
state. -/
theorem adjust_edge_capacities_spec (g : DynamicResourceGraph) :
    (∀ u v, (adjust_edge_capacities g).edges u v =
      (g.edges u v).map (fun e =>
        { e with current_capacity := e.max_capacity - e.flow })) ∧
    (adjust_edge_capacities g).nodes = g.nodes ∧
    (adjust_edge_capacities g).node_max = g.node_max ∧
    (adjust_edge_capacities g).node_edge = g.node_edge ∧
    (adjust_edge_capacities g).distance_constant = g.distance_constant ∧
    adjust_edge_capacities (adjust_edge_capacities g) = adjust_edge_capacities g := by
  refine ⟨fun u v => rfl, rfl, rfl, rfl, rfl, ?_⟩
  unfold adjust_edge_capacities
  congr 1
  funext u v
  dsimp only
  cases g.edges u v with
  | none => rfl
  | some e => rfl

/-- C7: `ResetFlows` gives every edge `flow = 0`,
`currentCapacity = maxCapacity` and an empty vehicle list, leaves every
node's counts and every edge's `maxCapacity`/`distance`/`travelTime`
untouched, and afterwards `GetVehiclePositions` returns an empty vehicle
list for every edge. -/
theorem reset_flows_spec (g : DynamicResourceGraph) :
    (∀ u v, (reset_flows g).edges u v =
      (g.edges u v).map (fun e =>
        { e with flow := 0, current_capacity := e.max_capacity, cars := [] })) ∧
    (reset_flows g).nodes = g.nodes ∧
    (reset_flows g).node_max = g.node_max ∧
    (reset_flows g).node_edge = g.node_edge ∧
    (reset_flows g).distance_constant = g.distance_constant ∧
    (∀ u v, get_car_positions (reset_flows g) u v =
      (g.edges u v).map (fun _ => ([] : List (ℕ × ℚ)))) := by
  refine ⟨fun u v => rfl, rfl, rfl, rfl, rfl, fun u v => ?_⟩
  show ((g.edges u v).map _).map _ = _
  cases g.edges u v with
  | none => rfl
  | some e => rfl

/-- C8: constructing with `nodeCount = 0` fails with an explicit error
instead of returning a degenerate graph (in the source, the `y // x`
division raises `ZeroDivisionError`, which realizes the spec's
`InvalidConstruction` condition for non-positive `nodeCount`). -/
theorem initialize_graph_zero_fails (y z node_max node_edge : ℤ)
    (dc : ℚ) (s : ℕ → ℕ → ℚ) :
    initialize_graph 0 y z node_max node_edge dc s =
      .error GraphError.zeroDivision := rfl

/-- C6: after a successful construction, an edge is present exactly for each
ordered pair of distinct valid node ids (so there is no self-loop), and every
edge starts with `maxCapacity = currentCapacity = edgeMaxCapacity`,
`flow = 0`, an empty vehicle list, and
`travelTime = distance × distanceConstant` with the sampled distance. -/
theorem initialize_graph_edges_spec (x : ℕ) (y z nm ne : ℤ) (dc : ℚ)
    (s : ℕ → ℕ → ℚ) (g : DynamicResourceGraph)
    (h : initialize_graph x y z nm ne dc s = .ok g) :
    (∀ i j, (g.edges i j).isSome ↔ i < x ∧ j < x ∧ i ≠ j) ∧
    (∀ i, g.edges i i = none) ∧
    (∀ i j e, g.edges i j = some e →
      e.max_capacity = ne ∧ e.current_capacity = ne ∧ e.flow = 0 ∧
      e.cars = [] ∧ e.distance = s i j ∧ e.travel_time = e.distance * dc) := by
  unfold initialize_graph at h
  split at h
  · exact absurd h (by simp)
  injection h with h
  have hedges : ∀ i j, g.edges i j =
      (if i < x ∧ j < x ∧ i ≠ j then
        some { max_capacity := ne, current_capacity := ne, distance := s i j,
               travel_time := s i j * dc, flow := 0, cars := [] }
      else none) := by
    intro i j; rw [← h]
  refine ⟨?_, ?_, ?_⟩
  · intro i j
    rw [hedges i j]
    by_cases hij : i < x ∧ j < x ∧ i ≠ j
    · rw [if_pos hij]; simpa using hij
    · rw [if_neg hij]; simpa using hij
  · intro i
    rw [hedges i i, if_neg (by simp)]
  · intro i j e he
    rw [hedges i j] at he
    by_cases hij : i < x ∧ j < x ∧ i ≠ j
    · rw [if_pos hij] at he
      obtain rfl := (Option.some.inj he).symm
      exact ⟨rfl, rfl, rfl, rfl, rfl, rfl⟩
    · rw [if_neg hij] at he
      exact absurd he (by simp)

/-- Witness for C6 at the concrete 5-node example graph. -/
theorem initialize_graph_edges_spec_witness :
    (∀ i, exG.edges i i = none) ∧
    ((exG.edges 0 1).isSome ↔ 0 < 5 ∧ 1 < 5 ∧ (0 : ℕ) ≠ 1) := by
  have H := initialize_graph_edges_spec 5 100 20 50 30 1 (fun _ _ => 4) exG rfl
  exact ⟨H.2.1, H.1 0 1⟩

theorem peopleSum_const (g : DynamicResourceGraph) (k : ℤ) :
    ∀ x : ℕ, (∀ i, i < x → ((g.nodes i).map NodeData.people).getD 0 = k) →
      peopleSum g x = x * k := by
  intro x
  induction x with
  | zero => intro _; simp [peopleSum]
  | succ n ih =>
      intro hall
      show peopleSum g n + _ = _
      rw [ih (fun i hi => hall i (Nat.lt_succ_of_lt hi)),
        hall n (Nat.lt_succ_self n)]
      push_cast
      ring

/-- C5: a valid construction gives every node exactly
`floor(totalPeople/nodeCount)` people and `floor(totalCars/nodeCount)` cars,
so the total amount of people over all nodes is
`nodeCount × floor(totalPeople/nodeCount)` (the remainder is dropped). -/
theorem initialize_graph_distribution_spec (x : ℕ) (y z nm ne : ℤ) (dc : ℚ)
    (s : ℕ → ℕ → ℚ) (g : DynamicResourceGraph)
    (hx : 1 ≤ x) (hy : 0 ≤ y) (hz : 0 ≤ z)
    (h : initialize_graph x y z nm ne dc s = .ok g) :
    (∀ i, i < x → g.nodes i =
      some { people := Int.fdiv y x, cars := Int.fdiv z x,
             max_capacity := nm }) ∧
    peopleSum g x = x * Int.fdiv y x := by
  unfold initialize_graph at h
  split at h
  · exact absurd h (by simp)
  injection h with h
  have hnodes : ∀ i, g.nodes i =
      (if i < x then
        some { people := Int.fdiv y x, cars := Int.fdiv z x,
               max_capacity := nm }
      else none) := by
    intro i; rw [← h]
  constructor
  · intro i hi
    rw [hnodes i, if_pos hi]
  · refine peopleSum_const g _ x (fun i hi => ?_)
    rw [hnodes i, if_pos hi]
    rfl

/-- Witness for C5 at the concrete 5-node example graph
(100 people and 20 cars over 5 nodes: 20 people and 4 cars per node). -/
theorem initialize_graph_distribution_spec_witness :
    peopleSum exG 5 = 5 * Int.fdiv 100 5 ∧
    exG.nodes 0 =
      some { people := Int.fdiv 100 5, cars := Int.fdiv 20 5,
             max_capacity := 50 } := by
  have H := initialize_graph_distribution_spec 5 100 20 50 30 1 (fun _ _ => 4)
    exG (by decide) (by decide) (by decide) rfl
  exact ⟨H.2, H.1 0 (by decide)⟩

/-- C1 (amended: the traversed edges — the consecutive pairs of the path —
must additionally be pairwise distinct; a path such as `[0, 1, 0, 1]` has
distinct consecutive entries but traverses edge `(0, 1)` twice and
accumulates `2 × peopleAmount` of flow on it): a successful `MoveResources`
call raises each traversed edge's `flow` by `peopleAmount`, lowers its
`currentCapacity` by `peopleAmount`, and appends exactly `carsAmount`
vehicle records with `position = 0` to its vehicle list; untraversed edges
are unchanged; and every node's `people`/`cars` change by the moved amounts
times the net number of times the node occurs as a step target minus as a
step source (each step decrements its source and increments its target, so
interior nodes of a simple path net to zero). -/
theorem move_resources_success_spec {g g' : DynamicResourceGraph}
    {path : List ℕ} {p c : ℤ} (hp : 0 ≤ p) (hc : 0 ≤ c)
    (hnd : (path.zip path.tail).Nodup)
    (h : move_resources g path p c = .ok g') :
    (∀ u v, (u, v) ∈ path.zip path.tail → ∃ e, g.edges u v = some e ∧
      g'.edges u v =
        some { e with flow := e.flow + p,
                      current_capacity := e.current_capacity - p,
                      cars := e.cars ++ (List.range c.toNat).map (fun i =>
                        { car_id := e.cars.length + 1 + i, position := 0 }) }) ∧
    (∀ u v, ¬(u, v) ∈ path.zip path.tail → g'.edges u v = g.edges u v) ∧
    (∀ n, g'.nodes n = (g.nodes n).map (fun nd =>
      { nd with people := nd.people + p * stepDelta (path.zip path.tail) n,
                cars := nd.cars + c * stepDelta (path.zip path.tail) n })) := by
  obtain ⟨hother, hmem, hnodes⟩ := move_loop_ok_char _ g g' p c hnd h
  refine ⟨?_, hother, ?_⟩
  · intro u v huv
    obtain ⟨e, he, he'⟩ := hmem u v huv
    refine ⟨e, he, ?_⟩
    rw [he']
    rw [show appendCars e.cars c.toNat =
      e.cars ++ (List.range c.toNat).map (fun i =>
        { car_id := e.cars.length + 1 + i, position := (0 : ℚ) })
      from appendCars_eq c.toNat e.cars]
    rfl
  · intro n
    rw [hnodes n]
    rfl

/-- Witness for C1: the spec's concrete example — on the fresh 5-node graph
with edge capacity 30, `move_resources([0, 1, 2], 10, 2)` succeeds and both
traversed edges end with `flow = 10` and `currentCapacity = 20`. -/
theorem move_resources_success_spec_witness :
    (0 : ℤ) ≤ 10 ∧ (0 : ℤ) ≤ 2 ∧
    (([0, 1, 2] : List ℕ).zip [0, 1, 2].tail).Nodup ∧
    move_resources exG [0, 1, 2] 10 2 = .ok exG' ∧
    (∃ e, exG.edges 0 1 = some e ∧
      exG'.edges 0 1 =
        some { e with flow := e.flow + 10,
                      current_capacity := e.current_capacity - 10,
                      cars := e.cars ++ (List.range (2 : ℤ).toNat).map (fun i =>
                        { car_id := e.cars.length + 1 + i, position := 0 }) }) ∧
    (exG'.edges 0 1).map EdgeData.flow = some 10 ∧
    (exG'.edges 0 1).map EdgeData.current_capacity = some 20 ∧
    (exG'.edges 1 2).map EdgeData.flow = some 10 ∧
    (exG'.edges 1 2).map EdgeData.current_capacity = some 20 := by
  refine ⟨by decide, by decide, by decide, rfl, ?_, by decide, by decide,
    by decide, by decide⟩
  exact (move_resources_success_spec (by decide) (by decide) (by decide)
    (rfl : move_resources exG [0, 1, 2] 10 2 = .ok exG')).1 0 1 (by decide)

/-- Counterexample to C1 as stated: `[0, 1, 0, 1]` consists of valid node
ids with distinct consecutive entries, and `move_resources` with
`peopleAmount = 1` succeeds on the fresh example graph, yet the traversed
edge `(0, 1)` ends with `flow = 2`, not with its initial flow `0` increased
by `peopleAmount = 1`. -/
theorem move_resources_claim_counterexample :
    (∀ n ∈ ([0, 1, 0, 1] : List ℕ), n < 5) ∧
    (∀ s ∈ ([0, 1, 0, 1] : List ℕ).zip [0, 1, 0, 1].tail, s.1 ≠ s.2) ∧
    (0, 1) ∈ ([0, 1, 0, 1] : List ℕ).zip [0, 1, 0, 1].tail ∧
    move_resources exG [0, 1, 0, 1] 1 0 = .ok cexG1 ∧
    (exG.edges 0 1).map EdgeData.flow = some 0 ∧
    (cexG1.edges 0 1).map EdgeData.flow = some 2 ∧
    ¬ (cexG1.edges 0 1).map EdgeData.flow = some (0 + 1) :=
  ⟨by decide, by decide, by decide, rfl, by decide, by decide, by decide⟩

/-- C2: when a `MoveResources` step drives its edge's `currentCapacity`
below zero on a well-formed path, the call fails with the
`CapacityExceeded (u, v)` error for that edge, and nothing is rolled back:
the violating edge keeps the increased flow and the (negative) decreased
capacity, and the final state is exactly the state `gPrev` produced by the
fully applied earlier steps with only the violating edge's bump on top. -/
theorem move_resources_capacity_failure_spec {g g' : DynamicResourceGraph}
    {path : List ℕ} {p c : ℤ} {err : GraphError}
    (hok : pathOk g path) (h : move_resources g path p c = .error (err, g')) :
    ∃ u v done rest gPrev e,
      err = .valueError u v ∧
      path.zip path.tail = done ++ (u, v) :: rest ∧
      move_loop g done p c = .ok gPrev ∧
      gPrev.edges u v = some e ∧
      g'.edges u v = some (bump e p) ∧
      (bump e p).flow = e.flow + p ∧
      (bump e p).current_capacity < 0 ∧
      g' = setEdgeFn gPrev u v (bump e p) := by
  obtain ⟨done, u, v, rest, gPrev, e, hsplit, hloop, herr, he, hcap, hg'⟩ :=
    move_resources_fail_char hok h
  refine ⟨u, v, done, rest, gPrev, e, herr, hsplit, hloop, he, ?_, rfl,
    hcap, hg'⟩
  rw [hg']
  exact setEdgeFn_edges_self gPrev u v (bump e p)

/-- Witness for C2: moving 40 people over `[0, 1]` on the example graph
(capacity 30) raises `CapacityExceeded (0, 1)` and leaves the edge with a
negative capacity. -/
theorem move_resources_capacity_failure_spec_witness :
    pathOk exG [0, 1] ∧
    move_resources exG [0, 1] 40 0 = .error exFail ∧
    ∃ u v, exFail.1 = GraphError.valueError u v ∧
      ∃ e', exFail.2.edges u v = some e' ∧ e'.current_capacity < 0 := by
  refine ⟨by decide, rfl, ?_⟩
  obtain ⟨u, v, done, rest, gPrev, e, herr, hsplit, hloop, he, hedge, hflow,
    hcap, hstate⟩ :=
    move_resources_capacity_failure_spec (by decide)
      (rfl : move_resources exG [0, 1] 40 0 = .error (exFail.1, exFail.2))
  exact ⟨u, v, herr, bump e 40, hedge, hcap⟩

/-- C10: when `MoveResources` fails with `CapacityExceeded` on the step for
edge `(u, v)`, the only mutations of the violating step are that edge's
`flow`/`currentCapacity` bump: relative to the state after the earlier
steps, no node count changed and the violating edge's vehicle list is
unchanged, because the error is raised before the node updates and the
vehicle appends of the step. -/
theorem move_resources_failure_scope_spec {g g' : DynamicResourceGraph}
    {path : List ℕ} {p c : ℤ} {err : GraphError}
    (hok : pathOk g path) (h : move_resources g path p c = .error (err, g')) :
    ∃ u v done rest gPrev,
      err = .valueError u v ∧
      path.zip path.tail = done ++ (u, v) :: rest ∧
      move_loop g done p c = .ok gPrev ∧
      g'.nodes = gPrev.nodes ∧
      (g'.edges u v).map EdgeData.cars = (gPrev.edges u v).map EdgeData.cars := by
  obtain ⟨done, u, v, rest, gPrev, e, hsplit, hloop, herr, he, hcap, hg'⟩ :=
    move_resources_fail_char hok h
  refine ⟨u, v, done, rest, gPrev, herr, hsplit, hloop, ?_, ?_⟩
  · rw [hg']; rfl
  · rw [hg', setEdgeFn_edges_self, he]; rfl

/-- Witness for C10 at the concrete failing call. -/
theorem move_resources_failure_scope_spec_witness :
    pathOk exG [0, 1] ∧
    ∃ u v gPrev, exFail.1 = GraphError.valueError u v ∧
      exFail.2.nodes = DynamicResourceGraph.nodes gPrev ∧
      (exFail.2.edges u v).map EdgeData.cars =
        (gPrev.edges u v).map EdgeData.cars := by
  refine ⟨by decide, ?_⟩
  obtain ⟨u, v, done, rest, gPrev, herr, hsplit, hloop, hn, hc⟩ :=
    move_resources_failure_scope_spec (by decide)
      (rfl : move_resources exG [0, 1] 40 0 = .error (exFail.1, exFail.2))
  exact ⟨u, v, gPrev, herr, hn, hc⟩

theorem step_ok_inv {g g' : DynamicResourceGraph} {u v : ℕ} {p c : ℤ}
    (hinv : edgeCapInv g) (h : step g u v p c = .ok g') : edgeCapInv g' := by
  obtain ⟨e, he, hcap, hself, hother, hnodes, _, _, _⟩ := step_ok_char h
  intro a b e0 he0
  by_cases hab : a = u ∧ b = v
  · obtain ⟨rfl, rfl⟩ := hab
    rw [hself] at he0
    obtain rfl := (Option.some.inj he0).symm
    have hi := hinv a b e he
    show e.current_capacity - p = e.max_capacity - (e.flow + p)
    omega
  · rw [hother a b hab] at he0
    exact hinv a b e0 he0

theorem move_loop_ok_inv :
    ∀ (steps : List (ℕ × ℕ)) (g g' : DynamicResourceGraph) (p c : ℤ),
      edgeCapInv g → move_loop g steps p c = .ok g' → edgeCapInv g' := by
  intro steps
  induction steps with
  | nil =>
      intro g g' p c hinv h
      injection h with h
      subst h
      exact hinv
  | cons s rest ih =>
      intro g g' p c hinv h
      obtain ⟨u, v⟩ := s
      unfold move_loop at h
      split at h
      · exact absurd h (by simp)
      · rename_i g1 h1
        exact ih g1 g' p c (step_ok_inv hinv h1) h

/-- C9: `currentCapacity = maxCapacity − flow` holds on every edge after
every operation: it is established by construction, preserved by every
successful `MoveResources` call, preserved by the partial state left behind
by a `CapacityExceeded` failure, restored by `ResetFlows` and by
`AdjustEdgeCapacities`, and untouched by `AdvanceVehiclePositions`. -/
theorem edge_capacity_invariant_spec :
    (∀ (x : ℕ) (y z nm ne : ℤ) (dc : ℚ) (s : ℕ → ℕ → ℚ)
        (g : DynamicResourceGraph),
      initialize_graph x y z nm ne dc s = .ok g → edgeCapInv g) ∧
    (∀ (g g' : DynamicResourceGraph) (path : List ℕ) (p c : ℤ),
      edgeCapInv g → move_resources g path p c = .ok g' → edgeCapInv g') ∧
    (∀ (g g' : DynamicResourceGraph) (path : List ℕ) (p c : ℤ) (u v : ℕ),
      edgeCapInv g →
      move_resources g path p c = .error (.valueError u v, g') →
      edgeCapInv g') ∧
    (∀ g : DynamicResourceGraph, edgeCapInv (reset_flows g)) ∧
    (∀ g : DynamicResourceGraph, edgeCapInv (adjust_edge_capacities g)) ∧
    (∀ (g : DynamicResourceGraph) (t : ℚ),
      edgeCapInv g → edgeCapInv (update_car_positions g t)) := by
  refine ⟨?_, ?_, ?_, ?_, ?_, ?_⟩
  · intro x y z nm ne dc s g h
    unfold initialize_graph at h
    split at h
    · exact absurd h (by simp)
    injection h with h
    have hedges : ∀ i j, g.edges i j =
        (if i < x ∧ j < x ∧ i ≠ j then
          some { max_capacity := ne, current_capacity := ne,
                 distance := s i j, travel_time := s i j * dc,
                 flow := 0, cars := [] }
        else none) := by
      intro i j; rw [← h]
    intro i j e he
    rw [hedges i j] at he
    by_cases hij : i < x ∧ j < x ∧ i ≠ j
    · rw [if_pos hij] at he
      obtain rfl := (Option.some.inj he).symm
      show ne = ne - 0
      omega
    · rw [if_neg hij] at he
      exact absurd he (by simp)
  · intro g g' path p c hinv h
    exact move_loop_ok_inv _ g g' p c hinv h
  · intro g g' path p c u v hinv h
    obtain ⟨done, u', v', rest, gPrev, hsplit, hloop, hstep⟩ :=
      move_loop_err_char _ _ _ _ _ _ h
    have hPrev : edgeCapInv gPrev := move_loop_ok_inv done g gPrev p c hinv hloop
    rcases step_err_char hstep with ⟨herr, _, _⟩ |
      ⟨e, he, hcap, herr, hg'⟩ | ⟨herr, _⟩
    · exact absurd herr (by simp)
    · subst hg'
      intro a b e0 he0
      by_cases hab : a = u' ∧ b = v'
      · obtain ⟨rfl, rfl⟩ := hab
        rw [setEdgeFn_edges_self] at he0
        obtain rfl := (Option.some.inj he0).symm
        have hi := hPrev a b e he
        show e.current_capacity - p = e.max_capacity - (e.flow + p)
        omega
      · rw [setEdgeFn_edges_ne _ _ _ _ _ _ hab] at he0
        exact hPrev a b e0 he0
    · exact absurd herr (by simp)
  · intro g u v e0 he0
    obtain ⟨e, he, rfl⟩ := Option.map_eq_some'.mp he0
    show e.max_capacity = e.max_capacity - 0
    omega
  · intro g u v e0 he0
    obtain ⟨e, he, rfl⟩ := Option.map_eq_some'.mp he0
    rfl
  · intro g t hinv u v e0 he0
    obtain ⟨e, he, rfl⟩ := Option.map_eq_some'.mp he0
    exact hinv u v e he

/-- Witness for C9: the invariant evaluated across the concrete example
states (fresh graph, successful move, failed move, reset, adjust,
advance). -/
theorem edge_capacity_invariant_spec_witness :
    edgeCapInv exG ∧ edgeCapInv exG' ∧ edgeCapInv exFail.2 ∧
    edgeCapInv (reset_flows exG) ∧ edgeCapInv (adjust_edge_capacities exG) ∧
    edgeCapInv (update_car_positions exG 1) := by
  obtain ⟨h1, h2, h3, h4, h5, h6⟩ := edge_capacity_invariant_spec
  have hg : edgeCapInv exG := h1 5 100 20 50 30 1 (fun _ _ => 4) exG rfl
  exact ⟨hg, h2 exG exG' [0, 1, 2] 10 2 hg rfl,
    h3 exG exFail.2 [0, 1] 40 0 0 1 hg rfl,
    h4 exG, h5 exG, h6 exG 1 hg⟩

/-- C3: an `AdvanceVehiclePositions(elapsedTime)` call with
`elapsedTime ≥ 0` advances every vehicle's position by
`(distance / travelTime) × elapsedTime` clamped at `distance`
(the first conjunct is the exact per-vehicle clamp formula), positions stay
within `[0, distance]` (second conjunct), and after repeated calls whose
total elapsed time reaches the edge's `travelTime` every vehicle on the edge
sits exactly at `position = distance` (third conjunct). -/
theorem update_car_positions_spec :
    (∀ (d tt t : ℚ) (car : Vehicle),
      (advanceCar d tt t car).position = min d (car.position + d / tt * t)) ∧
    (∀ (g : DynamicResourceGraph) (t : ℚ) (u v : ℕ) (e : EdgeData),
      0 ≤ t → g.edges u v = some e → 0 < e.travel_time →
      (∀ car ∈ e.cars, 0 ≤ car.position ∧ car.position ≤ e.distance) →
      (update_car_positions g t).edges u v =
        some { e with
               cars := e.cars.map (advanceCar e.distance e.travel_time t) } ∧
      (∀ car ∈ e.cars.map (advanceCar e.distance e.travel_time t),
        0 ≤ car.position ∧ car.position ≤ e.distance)) ∧
    (∀ (g : DynamicResourceGraph) (ts : List ℚ) (u v : ℕ) (e : EdgeData),
      (∀ t ∈ ts, 0 ≤ t) → g.edges u v = some e → 0 < e.travel_time →
      (∀ car ∈ e.cars, 0 ≤ car.position ∧ car.position ≤ e.distance) →
      e.travel_time ≤ ts.sum →
      ∃ e', (advanceTimes g ts).edges u v = some e' ∧
        e'.distance = e.distance ∧
        ∀ car ∈ e'.cars, car.position = e.distance) := by
  refine ⟨advanceCar_position, ?_, ?_⟩
  · intro g t u v e ht he htt hbounds
    refine ⟨update_car_positions_edge he t, ?_⟩
    intro car hcar
    obtain ⟨car0, hc0, rfl⟩ := List.mem_map.mp hcar
    exact advanceCar_bounds ht htt (hbounds car0 hc0).1 (hbounds car0 hc0).2
  · intro g ts u v e hts he htt hbounds hsum
    refine ⟨_, advanceTimes_edge ts g u v e he, rfl, ?_⟩
    intro car hcar
    obtain ⟨car0, hc0, rfl⟩ := List.mem_map.mp hcar
    rw [advance_foldl_position e.distance e.travel_time htt ts hts car0
      (hbounds car0 hc0).1 (hbounds car0 hc0).2]
    have hd : 0 ≤ e.distance :=
      le_trans (hbounds car0 hc0).1 (hbounds car0 hc0).2
    have hr : 0 ≤ e.distance / e.travel_time := div_nonneg hd htt.le
    have h1 : e.distance / e.travel_time * e.travel_time ≤
        e.distance / e.travel_time * ts.sum :=
      mul_le_mul_of_nonneg_left hsum hr
    rw [div_mul_cancel₀ e.distance (ne_of_gt htt)] at h1
    exact min_eq_left (le_trans h1 (le_add_of_nonneg_left (hbounds car0 hc0).1))

/-- Witness for C3: on the example graph after the move, edge `(0, 1)`
carries two vehicles at position 0, has `distance = 4` and
`travelTime = 4`; two advancement calls of 2 time units each (total 4)
put every vehicle exactly at `position = distance`. -/
theorem update_car_positions_spec_witness :
    ∃ e e', exG'.edges 0 1 = some e ∧ 0 < e.travel_time ∧
      (∀ car ∈ e.cars, 0 ≤ car.position ∧ car.position ≤ e.distance) ∧
      e.travel_time ≤ ([2, 2] : List ℚ).sum ∧
      (advanceTimes exG' [2, 2]).edges 0 1 = some e' ∧
      ∀ car ∈ e'.cars, car.position = e.distance := by
  have he : exG'.edges 0 1 =
      some { max_capacity := 30, current_capacity := 20, distance := 4,
             travel_time := 4 * 1, flow := 10,
             cars := [{ car_id := 1, position := 0 },
                      { car_id := 2, position := 0 }] } := rfl
  have hbounds : ∀ car ∈ [({ car_id := 1, position := 0 } : Vehicle),
      { car_id := 2, position := 0 }], 0 ≤ car.position ∧
        car.position ≤ (4 : ℚ) := by
    intro car hcar
    simp only [List.mem_cons, List.mem_singleton, List.not_mem_nil,
      or_false] at hcar
    rcases hcar with rfl | rfl <;> norm_num
  obtain ⟨e', h1, h2, h3⟩ := update_car_positions_spec.2.2 exG' [2, 2] 0 1 _
    (by norm_num) he (by norm_num) hbounds (by norm_num)
  exact ⟨_, e', he, by norm_num, hbounds, by norm_num, h1, h3⟩

end H4D
